import Mathlib

/-!
Verification of the TSP solver of `src/tsp.c` (a small exhaustive /
branch-and-bound solver for the symmetric travelling-salesman problem).

The C code is shallowly embedded: the `TSP` and `path` structs become Lean
structures, the distance matrix is the row-major list `distmat`, machine
`unsigned int` arithmetic is `Nat` with explicit reduction modulo `2^32`
where the C code can overflow (the running distance of a path), and the
recursive search `solveRec` becomes a fuel-indexed total function whose
for-loop over candidate cities is the helper `tryCities`.

Printing (`VERBOSE` / `DEBUG`) only produces output in the C program and is
not modelled.  `assert` preconditions are modelled as explicit predicates
(`pushPre`, `getDistPre`), and the raw array / matrix accesses that the C
code performs without a guard are modelled by the index computations
(`updBound`, `updIndices`) so that out-of-range accesses can be stated.
-/

/-- `2^32`, the modulus of C `unsigned int` arithmetic. -/
def M32 : Nat := 4294967296

/-- `UINT_MAX = 2^32 - 1`, the "infinite" distance the best-known path starts with. -/
def UINT_MAX : Nat := M32 - 1

/-- The `OPTIMIZE` bit of the options byte: `enum { VERBOSE = 1, DEBUG = 2, OPTIMIZE = 4 }`. -/
def OPTIMIZE : Nat := 4

/-- The `TSP` struct of `tsp.c`: problem size, first city, row-major distance
matrix `distmat` (entry `(i,j)` at flat index `i * size + j`) and the options
byte.  The `seed` and `distmax` fields only feed the random instance
generator and are not part of the solver. -/
structure TSP where
  size : Nat
  first : Nat
  distmat : List Nat
  options : Nat
deriving DecidableEq, Repr

/-- `tsp->options & OPTIMIZE` viewed as a Bool (the pruning flag). -/
def optimizeOn (tsp : TSP) : Bool := decide (tsp.options &&& OPTIMIZE ≠ 0)

/-- The `path` struct of `tsp.c`.  The C struct keeps a buffer of `maxlen`
cells of which only the first `curlen` are meaningful (and only those are
ever read); `array` here is exactly that meaningful prefix, so
`curlen = array.length`.  `maxlen` is carried separately where it matters
(the `assert`s of `pushCity`). -/
structure path where
  array : List Nat
  dist : Nat
deriving DecidableEq, Repr

/-- The raw row-major matrix read `tsp->distmat[i * tsp->size + j]` performed
by `updatePathDist` (and `getDist`).  Out-of-range reads are undefined
behaviour in C; the model returns the default `0` and out-of-rangeness is
stated separately via `updIndices` / `updReadsInRange`. -/
def matRead (tsp : TSP) (i j : Nat) : Nat := tsp.distmat.getD (i * tsp.size + j) 0

/-- The consecutive pairs `(array[i], array[i+1])`, `i < curlen - 1`,
that the loop of `updatePathDist` visits (for `curlen ≥ 1`). -/
def consecPairs : List Nat → List (Nat × Nat)
  | a :: b :: rest => (a, b) :: consecPairs (b :: rest)
  | _ => []

/-- The exact (unbounded) sum of the consecutive distances of a path:
the quantity the spec calls "the sum of `dist(array[i], array[i+1])` over
all consecutive pairs". -/
def cost (tsp : TSP) (l : List Nat) : Nat :=
  ((consecPairs l).map (fun pr => matRead tsp pr.1 pr.2)).sum

/-- The loop of `updatePathDist`: `distsum += dist` accumulated in a C
`unsigned int`, i.e. reduced modulo `2^32` at every addition.  This models
the loop for `curlen ≥ 1` (every call site inside the solver); the
`curlen = 0` loop-bound underflow of `updatePathDist` is modelled by
`updBound` below. -/
def wcost (tsp : TSP) (l : List Nat) : Nat :=
  (consecPairs l).foldl (fun acc pr => (acc + matRead tsp pr.1 pr.2) % M32) 0

/-- `pushCity`: append the city, then `updatePathDist` recomputes `dist`. -/
def pushCity (tsp : TSP) (p : path) (city : Nat) : path :=
  path.mk (p.array ++ [city]) (wcost tsp (p.array ++ [city]))

/-- `popCity`: `curlen--`, then `updatePathDist` recomputes `dist`. -/
def popCity (tsp : TSP) (p : path) : path :=
  path.mk p.array.dropLast (wcost tsp p.array.dropLast)

/-- `lastCity`: `p->array[p->curlen - 1]` (asserted non-empty in C). -/
def lastCity (p : path) : Nat := p.array.getLastD 0

/-- `checkPath`: a path of length `≤ 1` is always fine; otherwise the just
appended last city must not occur earlier in the path, and - when `OPTIMIZE`
is set - the current distance must be strictly below the best-known
distance (`cur->dist >= sol->dist` rejects).  `sol` is never `NULL` at the
call sites inside the solver. -/
def checkPath (tsp : TSP) (cur sol : path) : Bool :=
  if cur.array.length ≤ 1 then true
  else if lastCity cur ∈ cur.array.dropLast then false
  else if optimizeOn tsp && decide (sol.dist ≤ cur.dist) then false
  else true

/-- The body of `solveRec`'s `for (city ...)` loop, one iteration per element
of `cities`; `rec` stands for the recursive call `solveRec(tsp, cur, sol,
count)`.  State is threaded explicitly as `(cur, sol, count)`.  When the
pushed path reaches full length the tour is closed by pushing `tsp->first`,
the best-known path is replaced on strict improvement (`assignPath`), the
counter is incremented, and the closing city is popped again. -/
def tryCities (tsp : TSP) (rec : path → path → Nat → path × path × Nat) :
    List Nat → path → path → Nat → path × path × Nat
  | [], cur, sol, count => (cur, sol, count)
  | city :: rest, cur, sol, count =>
    let cur1 := pushCity tsp cur city
    if checkPath tsp cur1 sol then
      if cur1.array.length = tsp.size then
        let curC := pushCity tsp cur1 tsp.first
        let sol1 := if curC.dist < sol.dist then curC else sol
        let r := rec (popCity tsp curC) sol1 (count + 1)
        tryCities tsp rec rest (popCity tsp r.1) r.2.1 r.2.2
      else
        let r := rec cur1 sol count
        tryCities tsp rec rest (popCity tsp r.1) r.2.1 r.2.2
    else tryCities tsp rec rest (popCity tsp cur1) sol count

/-- `solveRec`, made total with a fuel argument bounding the recursion
depth: each genuine C recursion consumes one unit.  Out of fuel or a path
already at full length returns the state unchanged (the C function returns
immediately when `cur->curlen == tsp->size`). -/
def solveRec (tsp : TSP) : Nat → path → path → Nat → path × path × Nat
  | 0 => fun cur sol count => (cur, sol, count)
  | f + 1 => fun cur sol count =>
    if cur.array.length = tsp.size then (cur, sol, count)
    else tryCities tsp (solveRec tsp f) (List.range tsp.size) cur sol count

/-- `solveTSP`: the working path starts as `createPath(size+1, 0)` with the
first city pushed, the best-known path as `createPath(size+1, UINT_MAX)`;
it returns the best-known path and the completed-tour count.  Fuel
`tsp.size` covers the recursion (depth `size - 1` from the initial length-1
working path, and a call at full length returns for any fuel). -/
def solveTSP (tsp : TSP) : path × Nat :=
  let cur := pushCity tsp (path.mk [] 0) tsp.first
  let sol := path.mk [] UINT_MAX
  let r := solveRec tsp tsp.size cur sol 0
  (r.2.1, r.2.2)

/-- The same TSP instance with a different options byte. -/
def withOptions (tsp : TSP) (o : Nat) : TSP := TSP.mk tsp.size tsp.first tsp.distmat o

/-- The initial working tour of `solveTSP`: only the first city. -/
def initTour (tsp : TSP) : path := pushCity tsp (path.mk [] 0) tsp.first

/-- Tour states reachable from the solver's initial working tour by the tour
operations under their asserted preconditions (`pushCity` with a city index
below the problem size, `popCity` on any non-empty path).  `ReachSafe` below
restricts the pops to those the solver actually performs. -/
inductive Reach (tsp : TSP) : path → Prop
  | init : Reach tsp (initTour tsp)
  | push (p : path) (city : Nat) : Reach tsp p → city < tsp.size →
      Reach tsp (pushCity tsp p city)
  | pop (p : path) : Reach tsp p → p.array ≠ [] → Reach tsp (popCity tsp p)

/-- Tour states reachable from the solver's initial working tour by the
operations exactly as the solver performs them: `pushCity` with a city index
below the problem size, and `popCity` only on a path of length at least 2
(the solver only ever pops a city it has just pushed onto a tour still
holding the start city, so the `updatePathDist` inside `popCity` always runs
with `curlen ≥ 1`).  A pop from a length-1 path is excluded: there the C
loop bound `curlen - 1` underflows (`updBound`) and the code stores no
meaningful distance. -/
inductive ReachSafe (tsp : TSP) : path → Prop
  | init : ReachSafe tsp (initTour tsp)
  | push (p : path) (city : Nat) : ReachSafe tsp p → city < tsp.size →
      ReachSafe tsp (pushCity tsp p city)
  | pop (p : path) : ReachSafe tsp p → 2 ≤ p.array.length →
      ReachSafe tsp (popCity tsp p)

/-- A Hamiltonian cycle for the instance: `size + 1` cities, starting and
ending at the first city, visiting every city exactly once (its first
`size` entries are a permutation of `0 .. size-1`). -/
def IsHamCycle (tsp : TSP) (t : List Nat) : Prop :=
  t.length = tsp.size + 1 ∧ t.head? = some tsp.first ∧
    t.getLast? = some tsp.first ∧ t.dropLast.Perm (List.range tsp.size)

/-- The `assert`s of `pushCity`: `p->curlen < p->maxlen && city < p->maxlen`.
Inside the solver `maxlen = size + 1`. -/
def pushPre (maxlen : Nat) (p : path) (city : Nat) : Prop :=
  p.array.length < maxlen ∧ city < maxlen

/-- The asserted precondition of `getDist`: both indices below `size`. -/
def getDistPre (tsp : TSP) (i j : Nat) : Prop := i < tsp.size ∧ j < tsp.size

/-- `getDist`: the guarded matrix read (identical flat access to `matRead`,
but protected by `assert`s; `updatePathDist` does not use it). -/
def getDist (tsp : TSP) (i j : Nat) : Nat := tsp.distmat.getD (i * tsp.size + j) 0

/-- The upper bound of `updatePathDist`'s loop `for (i = 0; i < curlen - 1;
i++)`: `curlen - 1` computed in `unsigned int`, which wraps to `UINT_MAX`
when `curlen = 0`. -/
def updBound (curlen : Nat) : Nat := (curlen + M32 - 1) % M32

/-- Whether all `p->array[i]` / `p->array[i+1]` accesses of the
`updatePathDist` loop stay inside the `maxlen`-cell buffer: the largest
index touched is the loop bound itself (when the loop runs at all). -/
def updArrayInRange (maxlen curlen : Nat) : Prop :=
  updBound curlen = 0 ∨ updBound curlen < maxlen

/-- The flat distance-matrix indices `array[i] * size + array[i+1]` read by
`updatePathDist` on a path holding `l`. -/
def updIndices (size : Nat) (l : List Nat) : List Nat :=
  (consecPairs l).map (fun pr => pr.1 * size + pr.2)

/-- All distance-matrix reads of `updatePathDist` on `l` are in range. -/
def updReadsInRange (tsp : TSP) (l : List Nat) : Prop :=
  ∀ idx ∈ updIndices tsp.size l, idx < tsp.distmat.length

/-- The candidate-tour enumeration, spec side: the closed tours the search
tree below a partial path `p` contains, in the exploration order of the
code (cities tried in increasing order).  `toursLoop` mirrors the loop
(`rec` standing for the recursion), `toursFrom` the recursion with fuel. -/
def toursLoop (size first : Nat) (rec : List Nat → List (List Nat)) :
    List Nat → List Nat → List (List Nat)
  | [], _ => []
  | city :: rest, p =>
    (if city ∈ p then []
     else (if (p ++ [city]).length = size then [(p ++ [city]) ++ [first]] else [])
            ++ rec (p ++ [city]))
      ++ toursLoop size first rec rest p

/-- All closed candidate tours below partial path `p`, in exploration order. -/
def toursFrom (size first : Nat) : Nat → List Nat → List (List Nat)
  | 0, _ => []
  | f + 1, p =>
    if p.length = size then []
    else toursLoop size first (toursFrom size first f) (List.range size) p

/-- The best-known-path update rule applied along a list of closed tours:
replace exactly when the (wrapped) tour distance is strictly smaller. -/
def bestFold (tsp : TSP) (sol : path) (ts : List (List Nat)) : path :=
  ts.foldl (fun s t => if wcost tsp t < s.dist then path.mk t (wcost tsp t) else s) sol

/-- A 3-city instance whose symmetric `uint` distances make the running
distance wrap around: `d(0,1) = 2^32 - 1`, `d(1,2) = 1`, `d(0,2) = 0`.
Both Hamiltonian cycles from city 0 have exact total `2^32`, stored as `0`. -/
def tspA (o : Nat) : TSP := TSP.mk 3 0 [0, 4294967295, 0, 4294967295, 0, 1, 0, 1, 0] o

/-- A 3-city instance where both Hamiltonian cycles from city 0 cost exactly
`UINT_MAX`: `d(0,1) = 2^32 - 1`, all other distances `0`.  No closed tour is
strictly below the sentinel, so the solver's best-known path is never
replaced. -/
def tspB : TSP := TSP.mk 3 0 [0, 4294967295, 0, 4294967295, 0, 0, 0, 0, 0] 0

/-- A small well-behaved 2-city instance, `d(0,1) = 5`. -/
def tsp2 (o : Nat) : TSP := TSP.mk 2 0 [0, 5, 5, 0] o

/-! ### Arithmetic of the wrapped distance -/

theorem foldl_addMod (g : Nat × Nat → Nat) :
    ∀ (l : List (Nat × Nat)) (a : Nat),
      l.foldl (fun acc pr => (acc + g pr) % M32) (a % M32) = (a + (l.map g).sum) % M32 := by
  intro l
  induction l with
  | nil => intro a; simp
  | cons d l ih =>
    intro a
    simp only [List.foldl_cons, List.map_cons, List.sum_cons]
    rw [Nat.mod_add_mod, ih (a + g d), Nat.add_assoc]

/-- The stored `uint` distance is the exact consecutive sum modulo `2^32`. -/
theorem wcost_eq (tsp : TSP) (l : List Nat) : wcost tsp l = cost tsp l % M32 := by
  have h := foldl_addMod (fun pr => matRead tsp pr.1 pr.2) (consecPairs l) 0
  simpa [wcost, cost] using h

/-! ### Push / pop basics -/

theorem popCity_pushCity (tsp : TSP) (p : path) (city : Nat)
    (h : p.dist = wcost tsp p.array) : popCity tsp (pushCity tsp p city) = p := by
  cases p with
  | mk a d =>
    simp only [popCity, pushCity, List.dropLast_concat]
    simp_all

theorem solveRec_at_size (tsp : TSP) (f : Nat) (cur sol : path) (count : Nat)
    (h : cur.array.length = tsp.size) : solveRec tsp f cur sol count = (cur, sol, count) := by
  cases f with
  | zero => rfl
  | succ f => simp [solveRec, h]

/-! ### The backtracking frame: the working tour is restored -/

theorem tryCities_fst (tsp : TSP) (rec : path → path → Nat → path × path × Nat)
    (hrec : ∀ c s k, c.dist = wcost tsp c.array → (rec c s k).1 = c) :
    ∀ (cities : List Nat) (cur sol : path) (count : Nat),
      cur.dist = wcost tsp cur.array →
      (tryCities tsp rec cities cur sol count).1 = cur := by
  intro cities
  induction cities with
  | nil => intro cur sol count _; rfl
  | cons city rest ih =>
    intro cur sol count h
    simp only [tryCities]
    by_cases hchk : checkPath tsp (pushCity tsp cur city) sol
    · simp only [hchk, if_true]
      by_cases hlen : (pushCity tsp cur city).array.length = tsp.size
      · simp only [hlen, if_true]
        rw [popCity_pushCity tsp (pushCity tsp cur city) tsp.first rfl]
        rw [hrec (pushCity tsp cur city) _ _ rfl]
        rw [popCity_pushCity tsp cur city h]
        exact ih cur _ _ h
      · simp only [hlen, if_false]
        rw [hrec (pushCity tsp cur city) _ _ rfl]
        rw [popCity_pushCity tsp cur city h]
        exact ih cur _ _ h
    · simp only [hchk, if_false]
      rw [popCity_pushCity tsp cur city h]
      exact ih cur _ _ h

theorem solveRec_fst (tsp : TSP) :
    ∀ (f : Nat) (cur sol : path) (count : Nat), cur.dist = wcost tsp cur.array →
      (solveRec tsp f cur sol count).1 = cur := by
  intro f
  induction f with
  | zero => intro cur sol count _; rfl
  | succ f ih =>
    intro cur sol count h
    simp only [solveRec]
    by_cases hl : cur.array.length = tsp.size
    · simp [hl]
    · simp only [hl, if_false]
      exact tryCities_fst tsp _ (fun c s k hc => ih c s k hc) _ cur sol count h

/-- Every reachable tour state stores the wrapped consecutive sum. -/
theorem Reach.dist_eq {tsp : TSP} {p : path} (h : Reach tsp p) :
    p.dist = wcost tsp p.array := by
  induction h with
  | init => rfl
  | push p city hre hlt => rfl
  | pop p hre hne => rfl

/-- Every solver-reachable tour state stores the wrapped consecutive sum. -/
theorem reachSafe_dist {tsp : TSP} {p : path} (h : ReachSafe tsp p) :
    p.dist = wcost tsp p.array := by
  induction h with
  | init => rfl
  | push p city hre hlt => rfl
  | pop p hre hlen => rfl

/-- C7: Backtracking frame: from every reachable search state (working tour
holding the start city followed by pairwise-distinct other cities, current
length between 1 and `n`), `solveRec` returns with the working tour's entry
sequence, length and stored total distance equal to their entry values;
only the best-known path and the counter components can differ. -/
theorem solveRec_frame (tsp : TSP) (fuel : Nat) (cur sol : path) (count : Nat)
    (hre : Reach tsp cur) (_hhead : cur.array.head? = some tsp.first)
    (_hnd : cur.array.Nodup) (_hlen1 : 1 ≤ cur.array.length)
    (_hlen2 : cur.array.length ≤ tsp.size) :
    (solveRec tsp fuel cur sol count).1 = cur :=
  solveRec_fst tsp fuel cur sol count hre.dist_eq

theorem solveRec_frame_witness :
    Reach (tsp2 0) (initTour (tsp2 0)) ∧
      (initTour (tsp2 0)).array.head? = some (tsp2 0).first ∧
      (initTour (tsp2 0)).array.Nodup ∧
      1 ≤ (initTour (tsp2 0)).array.length ∧
      (initTour (tsp2 0)).array.length ≤ (tsp2 0).size ∧
      (solveRec (tsp2 0) 2 (initTour (tsp2 0)) (path.mk [] UINT_MAX) 0).1 = initTour (tsp2 0) :=
  ⟨Reach.init, by decide, by decide, by decide, by decide,
    solveRec_frame (tsp2 0) 2 (initTour (tsp2 0)) (path.mk [] UINT_MAX) 0 Reach.init
      (by decide) (by decide) (by decide) (by decide)⟩

/-- C5 counterexample: on the wrap-around instance `tspA 0` the working-tour
state `[0, 1]` is reachable (the solver pushes city 1 onto the initial
tour), and pushing city 2 stores total distance `0`, while the exact sum of
the consecutive distances of `[0, 1, 2]` is `2^32`: the stored total is the
sum only modulo `2^32`. -/
theorem pushCity_dist_overflow :
    ReachSafe (tspA 0) (pushCity (tspA 0) (initTour (tspA 0)) 1) ∧
      (pushCity (tspA 0) (pushCity (tspA 0) (initTour (tspA 0)) 1) 2).dist ≠
        cost (tspA 0) ((pushCity (tspA 0) (initTour (tspA 0)) 1).array ++ [2]) :=
  ⟨ReachSafe.push _ 1 ReachSafe.init (by decide), by decide⟩

/-- C5 amended: after every `pushCity` and after every `popCity` as the
solver performs them - pushes of in-range cities and pops from tours of
length at least 2, which are the only tour operations occurring in
`solveRec` / `solveTSP` (a pop from a length-1 tour instead runs the C8
out-of-range loop and stores no meaningful value) - the stored total
distance equals the sum of `distmat[array[i]][array[i+1]]` over consecutive
pairs reduced modulo `2^32` (the value of the C `uint` accumulation), and
equals the exact sum itself whenever that sum is below `2^32`. -/
theorem reach_dist_mod (tsp : TSP) (p : path) (hre : ReachSafe tsp p) :
    p.dist = cost tsp p.array % M32 ∧
      (cost tsp p.array < M32 → p.dist = cost tsp p.array) := by
  constructor
  · rw [reachSafe_dist hre, wcost_eq]
  · intro h; rw [reachSafe_dist hre, wcost_eq, Nat.mod_eq_of_lt h]

theorem reach_dist_mod_witness :
    ReachSafe (tsp2 0) (initTour (tsp2 0)) ∧
      ((initTour (tsp2 0)).dist = cost (tsp2 0) (initTour (tsp2 0)).array % M32 ∧
      (cost (tsp2 0) (initTour (tsp2 0)).array < M32 →
        (initTour (tsp2 0)).dist = cost (tsp2 0) (initTour (tsp2 0)).array)) :=
  ⟨ReachSafe.init, reach_dist_mod (tsp2 0) (initTour (tsp2 0)) ReachSafe.init⟩

/-- C8: `popCity` on a length-1 path hands `updatePathDist` a `curlen` of
`0`; the unsigned loop bound `curlen - 1` then wraps to `UINT_MAX`, so the
loop's `p->array[i]` reads run far past the `maxlen`-cell buffer (here
`maxlen = 3` for `n = 2`) instead of terminating at once with distance 0:
the pop-from-length-1 case promised by the spec is broken by an unsigned
underflow. -/
theorem popCity_len1_oob :
    (popCity (tsp2 0) (path.mk [0] 0)).array.length = 0 ∧
      updBound 0 = UINT_MAX ∧ ¬ updArrayInRange 3 0 := by
  refine ⟨by decide, by decide, ?_⟩
  simp only [updArrayInRange]
  decide

/-- C9 counterexample: with `n = 2` (`maxlen = 3`), pushing city `2 = n`
onto the length-1 path `[1]` satisfies both `pushCity` assertions
(`curlen < maxlen` and `city < maxlen`), yet `updatePathDist`'s unguarded
distance-matrix read is at flat index `1·2 + 2 = 4`, outside the `2 × 2`
matrix: a city index equal to `n` is not detected before the out-of-range
access. -/
theorem pushCity_size_not_detected :
    pushPre 3 (path.mk [1] 0) 2 ∧ ¬ updReadsInRange (tsp2 0) [1, 2] := by
  refine ⟨⟨by decide, by decide⟩, ?_⟩
  simp only [updReadsInRange]
  decide

/-- C9 amended: the `pushCity` assertions abort exactly the city indices
from `maxlen = n + 1` upwards; `city = n` itself passes them, and the
following `updatePathDist` matrix read is performed without any range
check (out of range whenever the previous last city is `n - 1`). -/
theorem pushPre_detects_ge_maxlen (maxlen : Nat) (p : path) (city : Nat)
    (h : maxlen ≤ city) : ¬ pushPre maxlen p city := by
  simp only [pushPre, not_and]
  intro _
  omega

theorem pushPre_detects_ge_maxlen_witness :
    3 ≤ 3 ∧ ¬ pushPre 3 (path.mk [1] 0) 3 :=
  ⟨by decide, pushPre_detects_ge_maxlen 3 (path.mk [1] 0) 3 (by decide)⟩

/-! ### checkPath on a freshly pushed city -/

theorem checkPath_push (tsp : TSP) (cur sol : path) (city : Nat)
    (h1 : 1 ≤ cur.array.length) :
    checkPath tsp (pushCity tsp cur city) sol =
      if city ∈ cur.array then false
      else if optimizeOn tsp && decide (sol.dist ≤ wcost tsp (cur.array ++ [city])) then false
      else true := by
  unfold checkPath pushCity lastCity
  simp only [List.dropLast_concat, List.getLastD_concat]
  rw [if_neg (by simp only [List.length_append, List.length_cons, List.length_nil]; omega)]

/-! ### bestFold algebra -/

theorem bestFold_nil (tsp : TSP) (sol : path) : bestFold tsp sol [] = sol := rfl

theorem bestFold_cons (tsp : TSP) (sol : path) (t : List Nat) (ts : List (List Nat)) :
    bestFold tsp sol (t :: ts) =
      bestFold tsp (if wcost tsp t < sol.dist then path.mk t (wcost tsp t) else sol) ts := rfl

theorem bestFold_append (tsp : TSP) (sol : path) (A B : List (List Nat)) :
    bestFold tsp sol (A ++ B) = bestFold tsp (bestFold tsp sol A) B := by
  simp [bestFold, List.foldl_append]

theorem toursFrom_at_size (size first : Nat) (f : Nat) (p : List Nat)
    (h : p.length = size) : toursFrom size first f p = [] := by
  cases f with
  | zero => rfl
  | succ f => simp [toursFrom, h]

/-! ### The unpruned run: exactly the candidate enumeration, folded -/

theorem tryCities_unpruned (tsp : TSP) (hopt : optimizeOn tsp = false) (f : Nat)
    (ih : ∀ (cur sol : path) (count : Nat), cur.dist = wcost tsp cur.array →
      1 ≤ cur.array.length →
      solveRec tsp f cur sol count =
        (cur, bestFold tsp sol (toursFrom tsp.size tsp.first f cur.array),
          count + (toursFrom tsp.size tsp.first f cur.array).length)) :
    ∀ (cities : List Nat) (cur sol : path) (count : Nat),
      cur.dist = wcost tsp cur.array → 1 ≤ cur.array.length →
      tryCities tsp (solveRec tsp f) cities cur sol count =
        (cur,
          bestFold tsp sol
            (toursLoop tsp.size tsp.first (toursFrom tsp.size tsp.first f) cities cur.array),
          count +
            (toursLoop tsp.size tsp.first (toursFrom tsp.size tsp.first f) cities
                cur.array).length) := by
  intro cities
  induction cities with
  | nil => intro cur sol count h h1; simp [tryCities, toursLoop, bestFold]
  | cons city rest ihc =>
    intro cur sol count h h1
    have hchk := checkPath_push tsp cur sol city h1
    rw [hopt] at hchk
    simp only [Bool.false_and, if_false, Bool.false_eq_true] at hchk
    by_cases hmem : city ∈ cur.array
    · rw [if_pos hmem] at hchk
      simp only [tryCities, hchk, Bool.false_eq_true, if_false]
      rw [popCity_pushCity tsp cur city h]
      rw [ihc cur sol count h h1]
      simp [toursLoop, hmem]
    · rw [if_neg hmem] at hchk
      by_cases hlen : (pushCity tsp cur city).array.length = tsp.size
      · -- the pushed path has full length: close the tour, count it, recurse (no-op)
        simp only [tryCities, hchk, if_true, hlen]
        rw [popCity_pushCity tsp (pushCity tsp cur city) tsp.first rfl]
        rw [solveRec_at_size tsp f (pushCity tsp cur city) _ _ hlen]
        rw [popCity_pushCity tsp cur city h]
        rw [ihc cur _ _ h h1]
        have hlen' : (cur.array ++ [city]).length = tsp.size := hlen
        simp only [toursLoop, if_neg hmem, if_pos hlen',
          toursFrom_at_size tsp.size tsp.first f _ hlen']
        simp only [List.append_nil, List.singleton_append, List.length_cons,
          bestFold_cons]
        refine Prod.ext rfl (Prod.ext rfl ?_)
        simp only [pushCity]
        omega
      · -- the pushed path is still short: genuine recursion
        simp only [tryCities, hchk, if_true, hlen, if_false]
        rw [ih (pushCity tsp cur city) sol count rfl (by simp [pushCity])]
        rw [popCity_pushCity tsp cur city h]
        rw [ihc cur _ _ h h1]
        have hlen' : ¬ (cur.array ++ [city]).length = tsp.size := hlen
        simp only [toursLoop, if_neg hmem, if_neg hlen', List.nil_append]
        refine Prod.ext rfl (Prod.ext ?_ ?_)
        · simp only [pushCity, bestFold_append]
        · simp only [pushCity, List.length_append]
          omega

theorem solveRec_unpruned (tsp : TSP) (hopt : optimizeOn tsp = false) :
    ∀ (f : Nat) (cur sol : path) (count : Nat),
      cur.dist = wcost tsp cur.array → 1 ≤ cur.array.length →
      solveRec tsp f cur sol count =
        (cur, bestFold tsp sol (toursFrom tsp.size tsp.first f cur.array),
          count + (toursFrom tsp.size tsp.first f cur.array).length) := by
  intro f
  induction f with
  | zero => intro cur sol count h h1; simp [solveRec, toursFrom, bestFold]
  | succ f ih =>
    intro cur sol count h h1
    by_cases hl : cur.array.length = tsp.size
    · rw [solveRec_at_size tsp _ cur sol count hl]
      simp [toursFrom, hl, bestFold]
    · simp only [solveRec, hl, if_false]
      rw [tryCities_unpruned tsp hopt f ih (List.range tsp.size) cur sol count h h1]
      simp only [toursFrom, hl, if_false]

/-! ### Counting the candidate enumeration -/

theorem length_filter_split (q : Nat → Bool) :
    ∀ l : List Nat, (l.filter q).length + (l.filter (fun a => !q a)).length = l.length := by
  intro l
  induction l with
  | nil => rfl
  | cons a l ih =>
    by_cases h : q a <;> simp only [List.filter_cons, h] <;> simp [← ih, h] <;> omega

theorem filter_mem_perm (p : List Nat) (size : Nat) (hnd : p.Nodup)
    (hsub : ∀ c ∈ p, c < size) :
    ((List.range size).filter (fun c => decide (c ∈ p))).Perm p := by
  apply List.perm_of_nodup_nodup_toFinset_eq
  · exact (List.nodup_range size).filter _
  · exact hnd
  · ext x
    simp only [List.mem_toFinset, List.mem_filter, List.mem_range, decide_eq_true_eq]
    exact ⟨fun h => h.2, fun h => ⟨hsub x h, h⟩⟩

theorem length_filter_not_mem_range (p : List Nat) (size : Nat) (hnd : p.Nodup)
    (hsub : ∀ c ∈ p, c < size) :
    ((List.range size).filter (fun c => !decide (c ∈ p))).length = size - p.length := by
  have h1 := length_filter_split (fun c => decide (c ∈ p)) (List.range size)
  have h2 : ((List.range size).filter (fun c => decide (c ∈ p))).length = p.length :=
    (filter_mem_perm p size hnd hsub).length_eq
  rw [List.length_range] at h1
  omega

theorem toursLoop_length (size first : Nat) (g : List Nat → List (List Nat)) (K : Nat) :
    ∀ (cities p : List Nat),
      (∀ c ∈ cities, c ∉ p →
        ((if (p ++ [c]).length = size then [(p ++ [c]) ++ [first]] else [])
            ++ g (p ++ [c])).length = K) →
      (toursLoop size first g cities p).length =
        K * (cities.filter (fun c => !decide (c ∈ p))).length := by
  intro cities
  induction cities with
  | nil => intro p hK; simp [toursLoop]
  | cons c rest ih =>
    intro p hK
    simp only [toursLoop]
    by_cases hmem : c ∈ p
    · rw [if_pos hmem, List.nil_append]
      rw [ih p (fun c hc => hK c (List.mem_cons_of_mem _ hc))]
      simp [List.filter_cons, hmem]
    · rw [if_neg hmem, List.length_append]
      rw [ih p (fun c hc => hK c (List.mem_cons_of_mem _ hc))]
      rw [hK c (List.mem_cons_self c rest) hmem]
      simp only [List.filter_cons, decide_not, decide_eq_false_iff_not.mpr hmem,
        Bool.not_false, if_pos, List.length_cons]
      rw [Nat.mul_succ]
      omega

theorem toursFrom_length (size first : Nat) :
    ∀ (f : Nat) (p : List Nat), p.Nodup → (∀ c ∈ p, c < size) →
      1 ≤ p.length → p.length < size → size ≤ f + p.length →
      (toursFrom size first f p).length = (size - p.length).factorial := by
  intro f
  induction f with
  | zero =>
    intro p _ _ _ h4 h5
    omega
  | succ f ih =>
    intro p hnd hsub h1 h2 h3
    have hneq : ¬ p.length = size := by omega
    simp only [toursFrom, if_neg hneq]
    rw [toursLoop_length size first _ ((size - (p.length + 1)).factorial) (List.range size) p ?hK]
    · rw [length_filter_not_mem_range p size hnd hsub]
      have hs : size - p.length = (size - (p.length + 1)) + 1 := by omega
      rw [hs, Nat.factorial_succ, Nat.mul_comm]
    case hK =>
      intro c hc hcp
      have hcs : c < size := List.mem_range.mp hc
      have hlen : (p ++ [c]).length = p.length + 1 := by
        simp
      by_cases hful : (p ++ [c]).length = size
      · rw [if_pos hful, toursFrom_at_size size first f _ hful]
        have hz : size - (p.length + 1) = 0 := by omega
        rw [hz]
        rfl
      · rw [if_neg hful, List.nil_append]
        have hnd' : (p ++ [c]).Nodup := by
          simp [List.nodup_append, hnd, hcp]
        have hsub' : ∀ x ∈ p ++ [c], x < size := by
          intro x hx
          rcases List.mem_append.mp hx with hx | hx
          · exact hsub x hx
          · simp only [List.mem_singleton] at hx
            omega
        rw [ih (p ++ [c]) hnd' hsub' (by omega) (by omega) (by omega), hlen]

/-- C3: with the OPTIMIZE flag clear, for every matrix of size `n ≥ 2` and
every start city below `n`, the completed-tour count returned by the solver
equals `(n-1)!`, independent of the matrix entries. -/
theorem solveTSP_count_unpruned (tsp : TSP) (hopt : optimizeOn tsp = false)
    (h2 : 2 ≤ tsp.size) (hf : tsp.first < tsp.size) :
    (solveTSP tsp).2 = (tsp.size - 1).factorial := by
  simp only [solveTSP]
  rw [solveRec_unpruned tsp hopt tsp.size (pushCity tsp (path.mk [] 0) tsp.first)
    (path.mk [] UINT_MAX) 0 rfl (by simp [pushCity])]
  have harr : (pushCity tsp (path.mk [] 0) tsp.first).array = [tsp.first] := by
    simp [pushCity]
  rw [harr]
  rw [toursFrom_length tsp.size tsp.first tsp.size [tsp.first] (by simp)
    (by intro c hc; simp only [List.mem_singleton] at hc; omega)
    (by simp) (by simp only [List.length_singleton]; omega) (by simp)]
  simp

theorem solveTSP_count_unpruned_witness :
    optimizeOn (tsp2 0) = false ∧ 2 ≤ (tsp2 0).size ∧ (tsp2 0).first < (tsp2 0).size ∧
      (solveTSP (tsp2 0)).2 = ((tsp2 0).size - 1).factorial :=
  ⟨by decide, by decide, by decide,
    solveTSP_count_unpruned (tsp2 0) (by decide) (by decide) (by decide)⟩

/-! ### The exact cost of a duplicate-free path is bounded by the matrix sum -/

theorem consecPairs_fst (l : List Nat) : (consecPairs l).map Prod.fst = l.dropLast := by
  induction l with
  | nil => rfl
  | cons a l ih =>
    cases l with
    | nil => rfl
    | cons b rest =>
      simp only [consecPairs, List.map_cons, List.dropLast_cons₂]
      rw [ih]

theorem consecPairs_mem (l : List Nat) (pr : Nat × Nat) (h : pr ∈ consecPairs l) :
    pr.1 ∈ l ∧ pr.2 ∈ l := by
  induction l with
  | nil => simp [consecPairs] at h
  | cons a l ih =>
    cases l with
    | nil => simp [consecPairs] at h
    | cons b rest =>
      simp only [consecPairs, List.mem_cons] at h
      rcases h with h | h
      · subst h
        exact ⟨List.mem_cons_self _ _, List.mem_cons_of_mem _ (List.mem_cons_self _ _)⟩
      · obtain ⟨h1, h2⟩ := ih h
        exact ⟨List.mem_cons_of_mem _ h1, List.mem_cons_of_mem _ h2⟩

theorem flatIdx_lt (s a1 b1 a2 b2 : Nat) (hb1 : b1 < s) (hlt : a1 < a2) :
    a1 * s + b1 < a2 * s + b2 := by
  have h1 : a1 * s + s ≤ a2 * s := by
    have h2 : (a1 + 1) * s ≤ a2 * s := Nat.mul_le_mul_right s hlt
    calc a1 * s + s = (a1 + 1) * s := by ring
    _ ≤ a2 * s := h2
  omega

theorem flatIdx_inj (s a1 b1 a2 b2 : Nat) (hb1 : b1 < s) (hb2 : b2 < s)
    (h : a1 * s + b1 = a2 * s + b2) : a1 = a2 ∧ b1 = b2 := by
  have ha : a1 = a2 := by
    rcases Nat.lt_trichotomy a1 a2 with hlt | heq | hgt
    · exact absurd h (Nat.ne_of_lt (flatIdx_lt s a1 b1 a2 b2 hb1 hlt))
    · exact heq
    · exact absurd h.symm (Nat.ne_of_lt (flatIdx_lt s a2 b2 a1 b1 hb2 hgt))
  subst ha
  omega

theorem updIndices_nodup (tsp : TSP) (l : List Nat) (hnd : l.dropLast.Nodup)
    (hsub : ∀ c ∈ l, c < tsp.size) : (updIndices tsp.size l).Nodup := by
  have hpairs : (consecPairs l).Nodup := by
    apply List.Nodup.of_map Prod.fst
    rw [consecPairs_fst]
    exact hnd
  apply List.Nodup.map_on ?hinj hpairs
  case hinj =>
    intro pr1 h1 pr2 h2 heq
    obtain ⟨_, hb1⟩ := consecPairs_mem l pr1 h1
    obtain ⟨_, hb2⟩ := consecPairs_mem l pr2 h2
    obtain ⟨hfst, hsnd⟩ :=
      flatIdx_inj tsp.size pr1.1 pr1.2 pr2.1 pr2.2 (hsub _ hb1) (hsub _ hb2) heq
    exact Prod.ext hfst hsnd

theorem sum_map_eq_sum_toFinset (f : Nat → Nat) :
    ∀ (idxs : List Nat), idxs.Nodup → (idxs.map f).sum = ∑ i in idxs.toFinset, f i := by
  intro idxs
  induction idxs with
  | nil => intro h; simp
  | cons i idxs ih =>
    intro h
    rcases List.nodup_cons.mp h with ⟨hi, hnd⟩
    rw [List.map_cons, List.sum_cons, List.toFinset_cons,
      Finset.sum_insert (by simpa using hi), ih hnd]

theorem getD_sum_range (dm : List Nat) :
    ∑ i in Finset.range dm.length, dm.getD i 0 = dm.sum := by
  induction dm with
  | nil => simp
  | cons a dm ih =>
    rw [List.length_cons, Finset.sum_range_succ']
    simp only [List.getD_cons_succ, List.getD_cons_zero, List.sum_cons]
    rw [ih]
    omega

theorem sum_getD_nodup_le (dm : List Nat) (idxs : List Nat) (hnd : idxs.Nodup)
    (hsub : ∀ i ∈ idxs, i < dm.length) :
    (idxs.map (fun i => dm.getD i 0)).sum ≤ dm.sum := by
  rw [sum_map_eq_sum_toFinset _ idxs hnd]
  calc ∑ i in idxs.toFinset, dm.getD i 0
      ≤ ∑ i in Finset.range dm.length, dm.getD i 0 := by
        apply Finset.sum_le_sum_of_subset
        intro x hx
        simp only [List.mem_toFinset] at hx
        simp only [Finset.mem_range]
        exact hsub x hx
  _ = dm.sum := getD_sum_range dm

theorem cost_le_sum (tsp : TSP) (l : List Nat) (hnd : l.dropLast.Nodup)
    (hsub : ∀ c ∈ l, c < tsp.size) (hdm : tsp.distmat.length = tsp.size * tsp.size) :
    cost tsp l ≤ tsp.distmat.sum := by
  have hmap : (consecPairs l).map (fun pr => matRead tsp pr.1 pr.2)
      = (updIndices tsp.size l).map (fun i => tsp.distmat.getD i 0) := by
    simp only [updIndices, List.map_map]
    rfl
  rw [cost, hmap]
  apply sum_getD_nodup_le _ _ (updIndices_nodup tsp l hnd hsub)
  intro i hi
  simp only [updIndices, List.mem_map] at hi
  obtain ⟨pr, hpr, hidx⟩ := hi
  obtain ⟨h1, h2⟩ := consecPairs_mem l pr hpr
  have ha := hsub _ h1
  have hb := hsub _ h2
  rw [hdm, ← hidx]
  calc pr.1 * tsp.size + pr.2 < pr.1 * tsp.size + tsp.size := by omega
  _ = (pr.1 + 1) * tsp.size := by ring
  _ ≤ tsp.size * tsp.size := Nat.mul_le_mul_right tsp.size ha

/-! ### Cost is monotone under path extension -/

theorem consecPairs_concat (l : List Nat) (a : Nat) (h : l ≠ []) :
    consecPairs (l ++ [a]) = consecPairs l ++ [(l.getLastD 0, a)] := by
  induction l with
  | nil => exact absurd rfl h
  | cons x l ih =>
    cases l with
    | nil => rfl
    | cons y rest =>
      have hstep : consecPairs ((x :: y :: rest) ++ [a])
          = (x, y) :: consecPairs ((y :: rest) ++ [a]) := rfl
      rw [hstep, ih (by simp)]
      simp [consecPairs, List.getLastD_cons]

theorem cost_concat_le (tsp : TSP) (l : List Nat) (a : Nat) :
    cost tsp l ≤ cost tsp (l ++ [a]) := by
  by_cases h : l = []
  · subst h; simp [cost, consecPairs]
  · rw [cost, cost, consecPairs_concat l a h, List.map_append, List.sum_append]
    omega

theorem cost_prefix_le (tsp : TSP) : ∀ (q l : List Nat), cost tsp l ≤ cost tsp (l ++ q) := by
  intro q
  induction q with
  | nil => intro l; simp
  | cons a q ih =>
    intro l
    calc cost tsp l ≤ cost tsp (l ++ [a]) := cost_concat_le tsp l a
    _ ≤ cost tsp ((l ++ [a]) ++ q) := ih (l ++ [a])
    _ = cost tsp (l ++ a :: q) := by rw [List.append_assoc, List.singleton_append]

theorem wcost_eq_cost (tsp : TSP) (l : List Nat) (h : cost tsp l < M32) :
    wcost tsp l = cost tsp l := by
  rw [wcost_eq, Nat.mod_eq_of_lt h]

/-! ### Shape of the enumerated candidate tours -/

theorem toursLoop_mem (size first : Nat) (g : List Nat → List (List Nat)) :
    ∀ (cities p t : List Nat),
      t ∈ toursLoop size first g cities p →
      ∃ c ∈ cities, c ∉ p ∧
        (((p ++ [c]).length = size ∧ t = (p ++ [c]) ++ [first]) ∨ t ∈ g (p ++ [c])) := by
  intro cities
  induction cities with
  | nil => intro p t h; simp [toursLoop] at h
  | cons c rest ih =>
    intro p t h
    simp only [toursLoop, List.mem_append] at h
    rcases h with h | h
    · by_cases hmem : c ∈ p
      · rw [if_pos hmem] at h
        simp at h
      · rw [if_neg hmem] at h
        refine ⟨c, List.mem_cons_self c rest, hmem, ?_⟩
        rcases List.mem_append.mp h with h | h
        · by_cases hful : (p ++ [c]).length = size
          · rw [if_pos hful] at h
            simp only [List.mem_singleton] at h
            exact Or.inl ⟨hful, h⟩
          · rw [if_neg hful] at h
            simp at h
        · exact Or.inr h
    · obtain ⟨c', hc', hcp', hor⟩ := ih p t h
      exact ⟨c', List.mem_cons_of_mem _ hc', hcp', hor⟩

theorem toursLoop_mem_of (size first : Nat) (g : List Nat → List (List Nat)) :
    ∀ (cities p : List Nat) (c : Nat) (t : List Nat), c ∈ cities → c ∉ p →
      (((p ++ [c]).length = size ∧ t = (p ++ [c]) ++ [first]) ∨ t ∈ g (p ++ [c])) →
      t ∈ toursLoop size first g cities p := by
  intro cities
  induction cities with
  | nil => intro p c t hc; simp at hc
  | cons c0 rest ih =>
    intro p c t hc hcp h
    simp only [toursLoop, List.mem_append]
    rcases List.mem_cons.mp hc with hceq | hcr
    · subst hceq
      left
      rw [if_neg hcp]
      rcases h with ⟨hful, ht⟩ | h
      · rw [if_pos hful]
        exact List.mem_append.mpr (Or.inl (by simp [ht]))
      · exact List.mem_append.mpr (Or.inr h)
    · right
      exact ih p c t hcr hcp h

theorem toursFrom_shape (size first : Nat) :
    ∀ (f : Nat) (p t : List Nat), p.Nodup → (∀ c ∈ p, c < size) →
      t ∈ toursFrom size first f p →
      ∃ ext, t = (p ++ ext) ++ [first] ∧ (p ++ ext).Nodup ∧
        (p ++ ext).length = size ∧ (∀ c ∈ p ++ ext, c < size) ∧ ext ≠ [] := by
  intro f
  induction f with
  | zero => intro p t _ _ h; simp [toursFrom] at h
  | succ f ih =>
    intro p t hnd hsub h
    by_cases hful : p.length = size
    · simp [toursFrom, hful] at h
    · simp only [toursFrom, if_neg hful] at h
      obtain ⟨c, hc, hcp, hor⟩ := toursLoop_mem size first _ (List.range size) p t h
      have hcs : c < size := List.mem_range.mp hc
      have hnd' : (p ++ [c]).Nodup := by simp [List.nodup_append, hnd, hcp]
      have hsub' : ∀ x ∈ p ++ [c], x < size := by
        intro x hx
        rcases List.mem_append.mp hx with hx | hx
        · exact hsub x hx
        · simp only [List.mem_singleton] at hx
          omega
      rcases hor with ⟨hlen, ht⟩ | hmem
      · exact ⟨[c], ht, hnd', hlen, hsub', by simp⟩
      · obtain ⟨ext', ht, hnd'', hlen'', hsub'', _⟩ := ih (p ++ [c]) t hnd' hsub' hmem
        refine ⟨c :: ext', ?_, ?_, ?_, ?_, by simp⟩
        · rw [ht]
          simp [List.append_assoc]
        · rw [List.append_cons]
          exact hnd''
        · rw [List.append_cons]
          exact hlen''
        · rw [List.append_cons]
          exact hsub''

theorem toursFrom_complete (size first : Nat) :
    ∀ (ext : List Nat) (f : Nat) (p : List Nat),
      (p ++ ext).Nodup → (∀ c ∈ p ++ ext, c < size) → (p ++ ext).length = size →
      ext ≠ [] → 1 ≤ p.length → size ≤ f + p.length →
      ((p ++ ext) ++ [first]) ∈ toursFrom size first f p := by
  intro ext
  induction ext with
  | nil => intro f p _ _ _ hne; exact absurd rfl hne
  | cons c ext' ih =>
    intro f p hnd hsub hlen _ h1 hfuel
    have hplen : (p ++ c :: ext').length = p.length + 1 + ext'.length := by
      simp
      omega
    have hplt : p.length < size := by omega
    have hf1 : 1 ≤ f := by omega
    obtain ⟨f', rfl⟩ : ∃ f', f = f' + 1 := ⟨f - 1, by omega⟩
    simp only [toursFrom, if_neg (by omega : ¬ p.length = size)]
    have hcp : c ∉ p := by
      rcases List.nodup_append.mp hnd with ⟨_, _, hdisj⟩
      intro hmem
      exact hdisj hmem (List.mem_cons_self c ext')
    apply toursLoop_mem_of size first _ (List.range size) p c _
      (List.mem_range.mpr (hsub c (by simp))) hcp
    cases ext' with
    | nil =>
      left
      constructor
      · simpa using hlen
      · rfl
    | cons d rest =>
      right
      have halg : p ++ c :: d :: rest = (p ++ [c]) ++ d :: rest := by
        rw [List.append_cons]
      rw [halg] at hnd hsub hlen ⊢
      exact ih f' (p ++ [c]) hnd hsub hlen (by simp) (by simp) (by simp; omega)

/-! ### A duplicate-free full-length list of cities is a permutation of all cities -/

theorem perm_range_of_nodup (l : List Nat) (n : Nat) (hnd : l.Nodup)
    (hsub : ∀ c ∈ l, c < n) (hlen : l.length = n) : l.Perm (List.range n) := by
  apply List.perm_of_nodup_nodup_toFinset_eq hnd (List.nodup_range n)
  apply Finset.eq_of_subset_of_card_le
  · intro x hx
    simp only [List.mem_toFinset, List.mem_range] at hx ⊢
    exact hsub x hx
  · rw [List.toFinset_card_of_nodup hnd, List.toFinset_card_of_nodup (List.nodup_range n),
      List.length_range, hlen]

/-! ### Folding min over the tour distances -/

theorem foldl_min_le_init : ∀ (ws : List Nat) (a : Nat), ws.foldl min a ≤ a := by
  intro ws
  induction ws with
  | nil => intro a; simp
  | cons w ws ih =>
    intro a
    simp only [List.foldl_cons]
    calc ws.foldl min (min a w) ≤ min a w := ih (min a w)
    _ ≤ a := Nat.min_le_left a w

theorem foldl_min_le_mem : ∀ (ws : List Nat) (a w : Nat), w ∈ ws → ws.foldl min a ≤ w := by
  intro ws
  induction ws with
  | nil => intro a w h; simp at h
  | cons v ws ih =>
    intro a w h
    simp only [List.foldl_cons]
    rcases List.mem_cons.mp h with rfl | h
    · calc ws.foldl min (min a w) ≤ min a w := foldl_min_le_init ws _
      _ ≤ w := Nat.min_le_right a w
    · exact ih (min a v) w h

theorem foldl_min_mem : ∀ (ws : List Nat) (a : Nat),
    ws.foldl min a = a ∨ ws.foldl min a ∈ ws := by
  intro ws
  induction ws with
  | nil => intro a; left; rfl
  | cons w ws ih =>
    intro a
    simp only [List.foldl_cons]
    rcases ih (min a w) with h | h
    · rw [h]
      rcases Nat.le_total a w with hle | hle
    
      · left
        exact Nat.min_eq_left hle
      · right
        rw [Nat.min_eq_right hle]
        exact List.mem_cons_self w ws
    · right
      exact List.mem_cons_of_mem _ h

theorem bestFold_dist (tsp : TSP) :
    ∀ (ts : List (List Nat)) (sol : path),
      (bestFold tsp sol ts).dist = (ts.map (wcost tsp)).foldl min sol.dist := by
  intro ts
  induction ts with
  | nil => intro sol; rfl
  | cons t ts ih =>
    intro sol
    rw [bestFold_cons, ih]
    simp only [List.map_cons, List.foldl_cons]
    congr 1
    by_cases h : wcost tsp t < sol.dist
    · rw [if_pos h]
      exact (Nat.min_eq_right (Nat.le_of_lt h)).symm
    · rw [if_neg h]
      exact (Nat.min_eq_left (by omega)).symm

theorem bestFold_skip (tsp : TSP) :
    ∀ (ts : List (List Nat)) (sol : path),
      (∀ t ∈ ts, sol.dist ≤ wcost tsp t) → bestFold tsp sol ts = sol := by
  intro ts
  induction ts with
  | nil => intro sol _; rfl
  | cons t ts ih =>
    intro sol h
    rw [bestFold_cons, if_neg (by have := h t (List.mem_cons_self t ts); omega)]
    exact ih sol (fun u hu => h u (List.mem_cons_of_mem _ hu))

/-- The best-known path after folding the update rule along the tour list is
either the initial one (nothing was strictly better), or the first tour in
the list that is strictly better than everything before it and at least as
good as everything after it. -/
theorem bestFold_first_min (tsp : TSP) :
    ∀ (ts : List (List Nat)) (sol : path),
      bestFold tsp sol ts = sol ∨
      ∃ pre u post, ts = pre ++ u :: post ∧
        bestFold tsp sol ts = path.mk u (wcost tsp u) ∧
        wcost tsp u < sol.dist ∧
        (∀ v ∈ pre, (bestFold tsp sol ts).dist < wcost tsp v) ∧
        (∀ v ∈ post, (bestFold tsp sol ts).dist ≤ wcost tsp v) := by
  intro ts
  induction ts with
  | nil => intro sol; left; rfl
  | cons t ts ih =>
    intro sol
    rw [bestFold_cons]
    by_cases hlt : wcost tsp t < sol.dist
    · rw [if_pos hlt]
      right
      rcases ih (path.mk t (wcost tsp t)) with heq | ⟨pre, u, post, hts, heq, hlt', hpre, hpost⟩
      · refine ⟨[], t, ts, rfl, heq, hlt, by simp, ?_⟩
        intro v hv
        rw [heq]
        have hd := bestFold_dist tsp ts (path.mk t (wcost tsp t))
        rw [heq] at hd
        have := foldl_min_le_mem (ts.map (wcost tsp)) (wcost tsp t) (wcost tsp v)
          (List.mem_map_of_mem _ hv)
        rw [← hd] at this
        exact this
      · refine ⟨t :: pre, u, post, by rw [hts]; simp, heq, ?_, ?_, hpost⟩
        · calc wcost tsp u < wcost tsp t := hlt'
          _ < sol.dist := hlt
        · intro v hv
          rcases List.mem_cons.mp hv with rfl | hv
          · rw [heq]
            exact hlt'
          · exact hpre v hv
    · rw [if_neg hlt]
      rcases ih sol with heq | ⟨pre, u, post, hts, heq, hlt', hpre, hpost⟩
      · left
        exact heq
      · right
        refine ⟨t :: pre, u, post, by rw [hts]; simp, heq, hlt', ?_, hpost⟩
        intro v hv
        rcases List.mem_cons.mp hv with rfl | hv
        · rw [heq]
          calc wcost tsp u < sol.dist := hlt'
          _ ≤ wcost tsp v := by omega
        · exact hpre v hv

/-! ### No overflow: on a duplicate-free path the stored distance is exact -/

theorem wcost_eq_cost_of_valid (tsp : TSP) (hdm : tsp.distmat.length = tsp.size * tsp.size)
    (hsum : tsp.distmat.sum < UINT_MAX) (l : List Nat)
    (hnd : l.dropLast.Nodup) (hsub : ∀ c ∈ l, c < tsp.size) :
    wcost tsp l = cost tsp l ∧ cost tsp l < UINT_MAX := by
  have hle := cost_le_sum tsp l hnd hsub hdm
  have hlt : cost tsp l < UINT_MAX := Nat.lt_of_le_of_lt hle hsum
  have hM : UINT_MAX < M32 := by decide
  exact ⟨wcost_eq_cost tsp l (by omega), hlt⟩

theorem checkPath_push_bound (tsp : TSP) (cur sol : path) (city : Nat)
    (h1 : 1 ≤ cur.array.length) (hmem : city ∉ cur.array)
    (hfalse : checkPath tsp (pushCity tsp cur city) sol = false) :
    sol.dist ≤ wcost tsp (cur.array ++ [city]) := by
  rw [checkPath_push tsp cur sol city h1, if_neg hmem] at hfalse
  by_cases h : optimizeOn tsp && decide (sol.dist ≤ wcost tsp (cur.array ++ [city]))
  · simp only [Bool.and_eq_true, decide_eq_true_eq] at h
    exact h.2
  · rw [if_neg h] at hfalse
    simp at hfalse

/-- Every candidate tour hanging below a pruned partial path costs at least
as much as the partial path, so none of them would have replaced the
best-known path: folding the update rule over the skipped block is a
no-op. -/
theorem block_skip (tsp : TSP) (hdm : tsp.distmat.length = tsp.size * tsp.size)
    (hfst : tsp.first < tsp.size) (hsum : tsp.distmat.sum < UINT_MAX)
    (f : Nat) (p1 : List Nat) (sol : path)
    (hnd : p1.Nodup) (hsub : ∀ c ∈ p1, c < tsp.size)
    (hbound : sol.dist ≤ wcost tsp p1) :
    bestFold tsp sol
      ((if p1.length = tsp.size then [p1 ++ [tsp.first]] else [])
        ++ toursFrom tsp.size tsp.first f p1) = sol := by
  apply bestFold_skip
  intro t ht
  have hshape : ∃ ext, t = (p1 ++ ext) ++ [tsp.first] ∧ (p1 ++ ext).Nodup ∧
      (∀ c ∈ p1 ++ ext, c < tsp.size) := by
    rcases List.mem_append.mp ht with ht | ht
    · by_cases hful : p1.length = tsp.size
      · rw [if_pos hful] at ht
        simp only [List.mem_singleton] at ht
        exact ⟨[], by simpa using ht, by simpa using hnd, by simpa using hsub⟩
      · rw [if_neg hful] at ht
        simp at ht
    · obtain ⟨ext, h1, h2, _, h4, _⟩ := toursFrom_shape tsp.size tsp.first f p1 t hnd hsub ht
      exact ⟨ext, h1, h2, h4⟩
  obtain ⟨ext, rfl, hnd', hsub'⟩ := hshape
  have hp1 : wcost tsp p1 = cost tsp p1 :=
    (wcost_eq_cost_of_valid tsp hdm hsum p1
      (List.Nodup.sublist (List.dropLast_sublist p1) hnd) hsub).1
  have ht1 : wcost tsp ((p1 ++ ext) ++ [tsp.first]) = cost tsp ((p1 ++ ext) ++ [tsp.first]) := by
    apply And.left
    apply wcost_eq_cost_of_valid tsp hdm hsum _ (by rw [List.dropLast_concat]; exact hnd')
    intro c hc
    rcases List.mem_append.mp hc with hc | hc
    · exact hsub' c hc
    · simp only [List.mem_singleton] at hc
      omega
  have hmono : cost tsp p1 ≤ cost tsp ((p1 ++ ext) ++ [tsp.first]) := by
    have h := cost_prefix_le tsp (ext ++ [tsp.first]) p1
    rwa [← List.append_assoc] at h
  calc sol.dist ≤ wcost tsp p1 := hbound
  _ = cost tsp p1 := hp1
  _ ≤ cost tsp ((p1 ++ ext) ++ [tsp.first]) := hmono
  _ = wcost tsp ((p1 ++ ext) ++ [tsp.first]) := ht1.symm

/-! ### The pruned run: same fold, fewer completed tours -/

theorem tryCities_pruned (tsp : TSP) (hdm : tsp.distmat.length = tsp.size * tsp.size)
    (hfst : tsp.first < tsp.size) (hsum : tsp.distmat.sum < UINT_MAX) (f : Nat)
    (ih : ∀ (cur sol : path) (count : Nat), cur.dist = wcost tsp cur.array →
      1 ≤ cur.array.length → cur.array.Nodup → (∀ c ∈ cur.array, c < tsp.size) →
      ∃ k, k ≤ (toursFrom tsp.size tsp.first f cur.array).length ∧
        solveRec tsp f cur sol count =
          (cur, bestFold tsp sol (toursFrom tsp.size tsp.first f cur.array), count + k)) :
    ∀ (cities : List Nat), (∀ c ∈ cities, c < tsp.size) →
      ∀ (cur sol : path) (count : Nat),
      cur.dist = wcost tsp cur.array → 1 ≤ cur.array.length →
      cur.array.Nodup → (∀ c ∈ cur.array, c < tsp.size) →
      ∃ k, k ≤ (toursLoop tsp.size tsp.first (toursFrom tsp.size tsp.first f)
          cities cur.array).length ∧
        tryCities tsp (solveRec tsp f) cities cur sol count =
          (cur,
            bestFold tsp sol
              (toursLoop tsp.size tsp.first (toursFrom tsp.size tsp.first f) cities cur.array),
            count + k) := by
  intro cities
  induction cities with
  | nil =>
    intro _ cur sol count h h1 hnd hsub
    exact ⟨0, by simp, by simp [tryCities, toursLoop, bestFold]⟩
  | cons city rest ihc =>
    intro hcs cur sol count h h1 hnd hsub
    have hcity : city < tsp.size := hcs city (List.mem_cons_self city rest)
    have hcs' : ∀ c ∈ rest, c < tsp.size := fun c hc => hcs c (List.mem_cons_of_mem _ hc)
    by_cases hmem : city ∈ cur.array
    · -- duplicate city: rejected, no tours below it
      have hchk : checkPath tsp (pushCity tsp cur city) sol = false := by
        rw [checkPath_push tsp cur sol city h1, if_pos hmem]
      obtain ⟨k, hk, heq⟩ := ihc hcs' cur sol count h h1 hnd hsub
      refine ⟨k, ?_, ?_⟩
      · simp only [toursLoop, if_pos hmem, List.nil_append]
        exact hk
      · simp only [tryCities, hchk, Bool.false_eq_true, if_false]
        rw [popCity_pushCity tsp cur city h, heq]
        simp only [toursLoop, if_pos hmem, List.nil_append]
    · have hnd1 : (cur.array ++ [city]).Nodup := by
        simp [List.nodup_append, hnd, hmem]
      have hsub1 : ∀ c ∈ cur.array ++ [city], c < tsp.size := by
        intro c hc
        rcases List.mem_append.mp hc with hc | hc
        · exact hsub c hc
        · simp only [List.mem_singleton] at hc
          omega
      by_cases hchk : checkPath tsp (pushCity tsp cur city) sol = true
      · by_cases hlen : (pushCity tsp cur city).array.length = tsp.size
        · -- close the tour, count it, recurse (immediately returns)
          have hlen' : (cur.array ++ [city]).length = tsp.size := hlen
          obtain ⟨k, hk, heq⟩ := ihc hcs' cur
            (if (pushCity tsp (pushCity tsp cur city) tsp.first).dist < sol.dist then
              pushCity tsp (pushCity tsp cur city) tsp.first else sol) (count + 1) h h1 hnd hsub
          refine ⟨k + 1, ?_, ?_⟩
          · have hfz := toursFrom_at_size tsp.size tsp.first f (cur.array ++ [city]) hlen'
            simp only [toursLoop]
            rw [if_neg hmem, if_pos hlen', hfz]
            simp only [List.append_nil, List.singleton_append, List.length_cons]
            omega
          · simp only [tryCities, hchk, if_true, hlen]
            rw [popCity_pushCity tsp (pushCity tsp cur city) tsp.first rfl]
            rw [solveRec_at_size tsp f (pushCity tsp cur city) _ _ hlen]
            rw [popCity_pushCity tsp cur city h, heq]
            simp only [toursLoop, if_neg hmem, if_pos hlen',
              toursFrom_at_size tsp.size tsp.first f _ hlen', List.append_nil,
              List.singleton_append, bestFold_cons]
            refine Prod.ext rfl (Prod.ext rfl ?_)
            simp only [pushCity]
            omega
        · -- genuine recursion below the pushed city
          obtain ⟨k1, hk1, heq1⟩ := ih (pushCity tsp cur city) sol count rfl
            (by simp [pushCity]) hnd1 hsub1
          obtain ⟨k2, hk2, heq2⟩ := ihc hcs' cur
            (bestFold tsp sol (toursFrom tsp.size tsp.first f (cur.array ++ [city])))
            (count + k1) h h1 hnd hsub
          have hk1' : k1 ≤ (toursFrom tsp.size tsp.first f (cur.array ++ [city])).length := hk1
          refine ⟨k1 + k2, ?_, ?_⟩
          · simp only [toursLoop]
            rw [if_neg hmem, if_neg (show ¬ (cur.array ++ [city]).length = tsp.size from hlen),
              List.nil_append]
            simp only [List.length_append]
            omega
          · simp only [tryCities, hchk, if_true, hlen, if_false]
            have h1a : (solveRec tsp f (pushCity tsp cur city) sol count).1
                = pushCity tsp cur city := by rw [heq1]
            have h1b : (solveRec tsp f (pushCity tsp cur city) sol count).2.1
                = bestFold tsp sol (toursFrom tsp.size tsp.first f (cur.array ++ [city])) := by
              rw [heq1]
              rfl
            have h1c : (solveRec tsp f (pushCity tsp cur city) sol count).2.2
                = count + k1 := by rw [heq1]
            rw [h1a, h1b, h1c, popCity_pushCity tsp cur city h, heq2]
            simp only [toursLoop]
            rw [if_neg hmem, if_neg (show ¬ (cur.array ++ [city]).length = tsp.size from hlen),
              List.nil_append]
            refine Prod.ext rfl (Prod.ext ?_ ?_)
            · rw [bestFold_append]
            · simp only [List.length_append]
              omega
      · -- pruned: the whole block below this city is skipped, and skipping
        -- it does not change the fold either
        have hchk' : checkPath tsp (pushCity tsp cur city) sol = false := by
          revert hchk
          cases checkPath tsp (pushCity tsp cur city) sol <;> simp
        have hbound : sol.dist ≤ wcost tsp (cur.array ++ [city]) :=
          checkPath_push_bound tsp cur sol city h1 hmem hchk'
        obtain ⟨k, hk, heq⟩ := ihc hcs' cur sol count h h1 hnd hsub
        refine ⟨k, ?_, ?_⟩
        · simp only [toursLoop, if_neg hmem, List.length_append]
          omega
        · simp only [tryCities, hchk', Bool.false_eq_true, if_false]
          rw [popCity_pushCity tsp cur city h, heq]
          simp only [toursLoop, if_neg hmem]
          rw [bestFold_append]
          rw [block_skip tsp hdm hfst hsum f (cur.array ++ [city]) sol hnd1 hsub1 hbound]

theorem solveRec_pruned (tsp : TSP) (hdm : tsp.distmat.length = tsp.size * tsp.size)
    (hfst : tsp.first < tsp.size) (hsum : tsp.distmat.sum < UINT_MAX) :
    ∀ (f : Nat) (cur sol : path) (count : Nat), cur.dist = wcost tsp cur.array →
      1 ≤ cur.array.length → cur.array.Nodup → (∀ c ∈ cur.array, c < tsp.size) →
      ∃ k, k ≤ (toursFrom tsp.size tsp.first f cur.array).length ∧
        solveRec tsp f cur sol count =
          (cur, bestFold tsp sol (toursFrom tsp.size tsp.first f cur.array), count + k) := by
  intro f
  induction f with
  | zero =>
    intro cur sol count h h1 hnd hsub
    exact ⟨0, by simp [toursFrom], by simp [solveRec, toursFrom, bestFold]⟩
  | succ f ih =>
    intro cur sol count h h1 hnd hsub
    by_cases hl : cur.array.length = tsp.size
    · rw [solveRec_at_size tsp _ cur sol count hl]
      exact ⟨0, by simp [toursFrom, hl], by simp [toursFrom, hl, bestFold]⟩
    · obtain ⟨k, hk, heq⟩ := tryCities_pruned tsp hdm hfst hsum f ih (List.range tsp.size)
        (fun c hc => List.mem_range.mp hc) cur sol count h h1 hnd hsub
      refine ⟨k, ?_, ?_⟩
      · simp only [toursFrom, hl, if_false]
        exact hk
      · simp only [solveRec, hl, if_false]
        rw [heq]
        simp only [toursFrom, hl, if_false]

/-! ### Top-level characterisation of solveTSP -/

/-- With pruning off, `solveTSP` is exactly the update-rule fold over the
full candidate enumeration, and the count is the number of candidates. -/
theorem solveTSP_unpruned_eq (tsp : TSP) (hopt : optimizeOn tsp = false) :
    solveTSP tsp =
      (bestFold tsp (path.mk [] UINT_MAX) (toursFrom tsp.size tsp.first tsp.size [tsp.first]),
        (toursFrom tsp.size tsp.first tsp.size [tsp.first]).length) := by
  simp only [solveTSP]
  rw [solveRec_unpruned tsp hopt tsp.size (pushCity tsp (path.mk [] 0) tsp.first)
    (path.mk [] UINT_MAX) 0 rfl (by simp [pushCity])]
  have harr : (pushCity tsp (path.mk [] 0) tsp.first).array = [tsp.first] := by
    simp [pushCity]
  rw [harr]
  simp

/-- For either setting of the pruning flag (under the no-overflow
hypothesis), `solveTSP` returns the update-rule fold over the full
enumeration, with a count of at most the number of candidates. -/
theorem solveTSP_general (tsp : TSP) (hfst : tsp.first < tsp.size)
    (hdm : tsp.distmat.length = tsp.size * tsp.size) (hsum : tsp.distmat.sum < UINT_MAX) :
    ∃ k, k ≤ (toursFrom tsp.size tsp.first tsp.size [tsp.first]).length ∧
      solveTSP tsp =
        (bestFold tsp (path.mk [] UINT_MAX) (toursFrom tsp.size tsp.first tsp.size [tsp.first]),
          k) := by
  obtain ⟨k, hk, heq⟩ := solveRec_pruned tsp hdm hfst hsum tsp.size
    (pushCity tsp (path.mk [] 0) tsp.first) (path.mk [] UINT_MAX) 0 rfl
    (by simp [pushCity]) (by simp [pushCity])
    (by intro c hc; simp only [pushCity, List.nil_append, List.mem_singleton] at hc; omega)
  have harr : (pushCity tsp (path.mk [] 0) tsp.first).array = [tsp.first] := by
    simp [pushCity]
  rw [harr] at hk
  refine ⟨k, hk, ?_⟩
  simp only [solveTSP]
  rw [heq, harr]
  simp

theorem toursFrom_top_length (tsp : TSP) (h2 : 2 ≤ tsp.size) (hfst : tsp.first < tsp.size) :
    (toursFrom tsp.size tsp.first tsp.size [tsp.first]).length = (tsp.size - 1).factorial := by
  rw [toursFrom_length tsp.size tsp.first tsp.size [tsp.first] (by simp)
    (by intro c hc; simp only [List.mem_singleton] at hc; omega)
    (by simp) (by simp only [List.length_singleton]; omega) (by simp)]
  simp

theorem toursFrom_top_ne_nil (tsp : TSP) (h2 : 2 ≤ tsp.size) (hfst : tsp.first < tsp.size) :
    toursFrom tsp.size tsp.first tsp.size [tsp.first] ≠ [] := by
  intro hnil
  have hlen := toursFrom_top_length tsp h2 hfst
  rw [hnil] at hlen
  have := Nat.factorial_pos (tsp.size - 1)
  simp only [List.length_nil] at hlen
  omega

theorem toursFrom_top_shape (tsp : TSP) (hfst : tsp.first < tsp.size) (t : List Nat)
    (ht : t ∈ toursFrom tsp.size tsp.first tsp.size [tsp.first]) :
    ∃ ext, t = ([tsp.first] ++ ext) ++ [tsp.first] ∧ ([tsp.first] ++ ext).Nodup ∧
      ([tsp.first] ++ ext).length = tsp.size ∧
      (∀ c ∈ [tsp.first] ++ ext, c < tsp.size) ∧ ext ≠ [] :=
  toursFrom_shape tsp.size tsp.first tsp.size [tsp.first] t (by simp)
    (by intro c hc; simp only [List.mem_singleton] at hc; omega) ht

theorem toursFrom_top_wcost (tsp : TSP) (hfst : tsp.first < tsp.size)
    (hdm : tsp.distmat.length = tsp.size * tsp.size) (hsum : tsp.distmat.sum < UINT_MAX)
    (t : List Nat) (ht : t ∈ toursFrom tsp.size tsp.first tsp.size [tsp.first]) :
    wcost tsp t = cost tsp t ∧ cost tsp t < UINT_MAX := by
  obtain ⟨ext, rfl, hnd, hlen, hsub, _⟩ := toursFrom_top_shape tsp hfst t ht
  apply wcost_eq_cost_of_valid tsp hdm hsum _ (by rw [List.dropLast_concat]; exact hnd)
  intro c hc
  rcases List.mem_append.mp hc with hc | hc
  · exact hsub c hc
  · simp only [List.mem_singleton] at hc
    omega

/-- A list is a Hamiltonian cycle of the instance iff it has the shape of an
enumerated candidate tour: the start city, a duplicate-free in-range
extension filling up length `size`, and the closing start city. -/
theorem hamCycle_iff_shape (tsp : TSP) (h2 : 2 ≤ tsp.size) (_hfst : tsp.first < tsp.size)
    (t : List Nat) :
    IsHamCycle tsp t ↔ ∃ ext, t = ([tsp.first] ++ ext) ++ [tsp.first] ∧
      ([tsp.first] ++ ext).Nodup ∧ ([tsp.first] ++ ext).length = tsp.size ∧
      (∀ c ∈ [tsp.first] ++ ext, c < tsp.size) ∧ ext ≠ [] := by
  constructor
  · rintro ⟨hlen, hhead, hlast, hperm⟩
    have hne : t ≠ [] := by
      intro h
      rw [h] at hlen
      simp at hlen
    have hsplit := List.dropLast_concat_getLast hne
    have hgl : t.getLast hne = tsp.first := by
      have := List.getLast?_eq_getLast t hne
      rw [hlast] at this
      exact (Option.some.injEq _ _).mp this.symm
    have hqlen : t.dropLast.length = tsp.size := by
      rw [hperm.length_eq, List.length_range]
    obtain ⟨qh, qt, hq⟩ : ∃ h r, t.dropLast = h :: r := by
      cases hq : t.dropLast with
      | nil => rw [hq] at hqlen; simp at hqlen; omega
      | cons h r => exact ⟨h, r, rfl⟩
    have hth : qh = tsp.first := by
      have : t.head? = some qh := by
        rw [← hsplit, hq]
        rfl
      rw [hhead] at this
      exact (Option.some.injEq _ _).mp this.symm
    refine ⟨qt, ?_, ?_, ?_, ?_, ?_⟩
    · rw [← hsplit, hq, hgl, hth]
      rfl
    · rw [List.singleton_append, ← hth, ← hq]
      exact hperm.nodup_iff.mpr (List.nodup_range tsp.size)
    · rw [List.singleton_append, ← hth, ← hq]
      exact hqlen
    · intro c hc
      rw [List.singleton_append, ← hth, ← hq] at hc
      exact List.mem_range.mp (hperm.subset hc)
    · intro h
      rw [h] at hq
      rw [hq] at hqlen
      simp at hqlen
      omega
  · rintro ⟨ext, rfl, hnd, hlen, hsub, hne⟩
    refine ⟨?_, ?_, ?_, ?_⟩
    · simp only [List.length_append, List.length_cons, List.length_nil] at hlen ⊢
      omega
    · simp
    · exact List.getLast?_concat _
    · rw [List.dropLast_concat]
      exact perm_range_of_nodup _ tsp.size hnd hsub hlen

/-- Under the no-overflow hypothesis the returned distance is the minimum of
the exact tour costs over the candidate enumeration, for either pruning
setting. -/
theorem solveTSP_min (tsp : TSP) (h2 : 2 ≤ tsp.size) (hfst : tsp.first < tsp.size)
    (hdm : tsp.distmat.length = tsp.size * tsp.size) (hsum : tsp.distmat.sum < UINT_MAX) :
    (∀ t ∈ toursFrom tsp.size tsp.first tsp.size [tsp.first],
        (solveTSP tsp).1.dist ≤ cost tsp t) ∧
      (∃ t ∈ toursFrom tsp.size tsp.first tsp.size [tsp.first],
        (solveTSP tsp).1.dist = cost tsp t) := by
  obtain ⟨k, _, heq⟩ := solveTSP_general tsp hfst hdm hsum
  have hd : (solveTSP tsp).1.dist =
      ((toursFrom tsp.size tsp.first tsp.size [tsp.first]).map (wcost tsp)).foldl
        min UINT_MAX := by
    rw [heq]
    exact bestFold_dist tsp _ _
  constructor
  · intro t ht
    have hle := foldl_min_le_mem _ UINT_MAX (wcost tsp t) (List.mem_map_of_mem _ ht)
    rw [← hd] at hle
    rw [← (toursFrom_top_wcost tsp hfst hdm hsum t ht).1]
    exact hle
  · rcases foldl_min_mem ((toursFrom tsp.size tsp.first tsp.size [tsp.first]).map (wcost tsp))
      UINT_MAX with hcase | hcase
    · exfalso
      obtain ⟨t0, ht0⟩ := List.exists_mem_of_ne_nil _ (toursFrom_top_ne_nil tsp h2 hfst)
      have hle := foldl_min_le_mem _ UINT_MAX (wcost tsp t0) (List.mem_map_of_mem _ ht0)
      rw [hcase] at hle
      obtain ⟨hw, hlt⟩ := toursFrom_top_wcost tsp hfst hdm hsum t0 ht0
      omega
    · rw [← hd] at hcase
      obtain ⟨t, ht, heqw⟩ := List.mem_map.mp hcase
      refine ⟨t, ht, ?_⟩
      rw [← heqw, (toursFrom_top_wcost tsp hfst hdm hsum t ht).1]

/-- The fold over the full enumeration never returns the sentinel: some tour
has exact cost below `UINT_MAX` and is folded in. -/
theorem bestFold_top_ne_sentinel (tsp : TSP) (h2 : 2 ≤ tsp.size) (hfst : tsp.first < tsp.size)
    (hdm : tsp.distmat.length = tsp.size * tsp.size) (hsum : tsp.distmat.sum < UINT_MAX) :
    ¬ bestFold tsp (path.mk [] UINT_MAX) (toursFrom tsp.size tsp.first tsp.size [tsp.first])
      = path.mk [] UINT_MAX := by
  intro hsol
  obtain ⟨t0, ht0⟩ := List.exists_mem_of_ne_nil _ (toursFrom_top_ne_nil tsp h2 hfst)
  have hd := bestFold_dist tsp (toursFrom tsp.size tsp.first tsp.size [tsp.first])
    (path.mk [] UINT_MAX)
  rw [hsol] at hd
  have hle := foldl_min_le_mem _ UINT_MAX (wcost tsp t0) (List.mem_map_of_mem _ ht0)
  rw [← hd] at hle
  obtain ⟨hw, hlt⟩ := toursFrom_top_wcost tsp hfst hdm hsum t0 ht0
  simp only at hle
  omega

/-- The returned best path is one of the enumerated candidate tours together
with its (wrapped) cost. -/
theorem solveTSP_sol_shape (tsp : TSP) (h2 : 2 ≤ tsp.size) (hfst : tsp.first < tsp.size)
    (hdm : tsp.distmat.length = tsp.size * tsp.size) (hsum : tsp.distmat.sum < UINT_MAX) :
    ∃ u ∈ toursFrom tsp.size tsp.first tsp.size [tsp.first],
      (solveTSP tsp).1 = path.mk u (wcost tsp u) := by
  obtain ⟨k, _, heq⟩ := solveTSP_general tsp hfst hdm hsum
  rcases bestFold_first_min tsp (toursFrom tsp.size tsp.first tsp.size [tsp.first])
    (path.mk [] UINT_MAX) with hsol | ⟨pre, u, post, hts, hbe, _, _, _⟩
  · exact absurd hsol (bestFold_top_ne_sentinel tsp h2 hfst hdm hsum)
  · refine ⟨u, ?_, ?_⟩
    · rw [hts]
      exact List.mem_append_right _ (List.mem_cons_self u post)
    · rw [heq]
      exact hbe

/-- The Hamiltonian cycles of a 3-city instance starting at city 0 are
exactly `[0,1,2,0]` and `[0,2,1,0]`. -/
theorem hamCycle3 (tsp : TSP) (hs : tsp.size = 3) (hf : tsp.first = 0) (t : List Nat)
    (ht : IsHamCycle tsp t) : t = [0, 1, 2, 0] ∨ t = [0, 2, 1, 0] := by
  obtain ⟨hlen, hhead, hlast, hperm⟩ := ht
  rw [hs] at hlen hperm
  rw [hf] at hhead hlast
  cases t with
  | nil => simp only [List.length_nil] at hlen; omega
  | cons a t1 =>
  cases t1 with
  | nil => simp only [List.length_cons, List.length_nil] at hlen; omega
  | cons b t2 =>
  cases t2 with
  | nil => simp only [List.length_cons, List.length_nil] at hlen; omega
  | cons c t3 =>
  cases t3 with
  | nil => simp only [List.length_cons, List.length_nil] at hlen; omega
  | cons d t4 =>
  cases t4 with
  | cons e t5 => simp only [List.length_cons] at hlen; omega
  | nil =>
    have ha : a = 0 := by simpa using hhead
    have hd : d = 0 := by
      rw [show (a :: b :: c :: d :: []) = [a, b, c] ++ [d] from rfl,
        List.getLast?_concat] at hlast
      simpa using hlast
    subst ha
    subst hd
    have hdrop : ([0, b, c, 0] : List Nat).dropLast = [0, b, c] := rfl
    rw [hdrop, show List.range 3 = [0, 1, 2] from rfl] at hperm
    have hperm' : ([b, c] : List Nat).Perm [1, 2] := hperm.cons_inv
    have hb : b ∈ ([1, 2] : List Nat) := hperm'.subset (by simp)
    rcases (by simpa using hb : b = 1 ∨ b = 2) with rfl | rfl
    · left
      have hc1 : ([c] : List Nat).Perm [2] := hperm'.cons_inv
      have hc : c = 2 := by simpa using List.perm_singleton.mp hc1
      rw [hc]
    · right
      have hswap : ([1, 2] : List Nat).Perm [2, 1] := by decide
      have hc1 : ([c] : List Nat).Perm [1] := (hperm'.trans hswap).cons_inv
      have hc : c = 1 := by simpa using List.perm_singleton.mp hc1
      rw [hc]

/-- C1 counterexample: on the wrap-around instance `tspA 0` (symmetric
`uint` matrix, size 3, start city 0, pruning off) the solver returns total
distance `0`, while every Hamiltonian cycle that starts and ends at city 0
has exact edge-sum `2^32`: the returned total is not the minimum of the
exact cycle sums. -/
theorem solveTSP_not_exact_min :
    (solveTSP (tspA 0)).1.dist = 0 ∧
      ∀ t, IsHamCycle (tspA 0) t → cost (tspA 0) t = M32 := by
  refine ⟨by decide, ?_⟩
  intro t ht
  rcases hamCycle3 (tspA 0) rfl rfl t ht with rfl | rfl
  · decide
  · decide

/-- C1 amended: for every symmetric matrix of size `n ≥ 2` whose entries sum
below `UINT_MAX` (so the `uint` tour totals cannot wrap) and every start
city below `n`, the total distance of the returned path is the minimum over
all Hamiltonian cycles starting and ending at the start city of the exact
sum of consecutive edge distances, for both settings of the pruning flag. -/
theorem solveTSP_optimal (tsp : TSP) (h2 : 2 ≤ tsp.size) (hfst : tsp.first < tsp.size)
    (hdm : tsp.distmat.length = tsp.size * tsp.size)
    (_hsym : ∀ i ∈ List.range tsp.size, ∀ j ∈ List.range tsp.size,
      matRead tsp i j = matRead tsp j i)
    (hsum : tsp.distmat.sum < UINT_MAX) :
    (∀ t, IsHamCycle tsp t → (solveTSP tsp).1.dist ≤ cost tsp t) ∧
      (∃ t, IsHamCycle tsp t ∧ (solveTSP tsp).1.dist = cost tsp t) := by
  obtain ⟨hall, hex⟩ := solveTSP_min tsp h2 hfst hdm hsum
  constructor
  · intro t ht
    obtain ⟨ext, rfl, hnd, hlen, hsub, hne⟩ := (hamCycle_iff_shape tsp h2 hfst t).mp ht
    exact hall _ (toursFrom_complete tsp.size tsp.first ext tsp.size [tsp.first] hnd hsub
      hlen hne (by simp) (by simp))
  · obtain ⟨t, ht, heq⟩ := hex
    refine ⟨t, ?_, heq⟩
    rw [hamCycle_iff_shape tsp h2 hfst t]
    exact toursFrom_top_shape tsp hfst t ht

theorem solveTSP_optimal_witness :
    2 ≤ (tsp2 0).size ∧ (tsp2 0).first < (tsp2 0).size ∧
      (tsp2 0).distmat.length = (tsp2 0).size * (tsp2 0).size ∧
      (∀ i ∈ List.range (tsp2 0).size, ∀ j ∈ List.range (tsp2 0).size,
        matRead (tsp2 0) i j = matRead (tsp2 0) j i) ∧
      (tsp2 0).distmat.sum < UINT_MAX ∧
      ((∀ t, IsHamCycle (tsp2 0) t → (solveTSP (tsp2 0)).1.dist ≤ cost (tsp2 0) t) ∧
        (∃ t, IsHamCycle (tsp2 0) t ∧ (solveTSP (tsp2 0)).1.dist = cost (tsp2 0) t)) :=
  ⟨by decide, by decide, by decide, by decide, by decide,
    solveTSP_optimal (tsp2 0) (by decide) (by decide) (by decide) (by decide) (by decide)⟩

/-- C4 counterexample: on `tspB` (size 3, both Hamiltonian cycles cost
exactly `UINT_MAX`) no closed tour is strictly below the sentinel, so the
solver returns its initial empty best-known path: the returned path does
not have length `n + 1`. -/
theorem solveTSP_invalid_result :
    ¬ (solveTSP tspB).1.array.length = tspB.size + 1 := by
  decide

/-- C4 amended: under the no-overflow hypothesis (matrix entries summing
below `UINT_MAX`, so some closed tour beats the sentinel) the returned path
has length `n + 1`, starts and ends at the configured start city, and its
first `n` entries are pairwise distinct and a permutation of `0 .. n-1`,
for both settings of the pruning flag. -/
theorem solveTSP_valid (tsp : TSP) (h2 : 2 ≤ tsp.size) (hfst : tsp.first < tsp.size)
    (hdm : tsp.distmat.length = tsp.size * tsp.size) (hsum : tsp.distmat.sum < UINT_MAX) :
    (solveTSP tsp).1.array.length = tsp.size + 1 ∧
      (solveTSP tsp).1.array.head? = some tsp.first ∧
      (solveTSP tsp).1.array.getLast? = some tsp.first ∧
      ((solveTSP tsp).1.array.take tsp.size).Nodup ∧
      ((solveTSP tsp).1.array.take tsp.size).Perm (List.range tsp.size) := by
  obtain ⟨u, hu, heq⟩ := solveTSP_sol_shape tsp h2 hfst hdm hsum
  obtain ⟨ext, hueq, hnd, hlen, hsub, _⟩ := toursFrom_top_shape tsp hfst u hu
  rw [heq, hueq]
  have htake : ((([tsp.first] ++ ext) ++ [tsp.first]).take tsp.size) = [tsp.first] ++ ext := by
    rw [← hlen]
    exact List.take_left _ _
  refine ⟨?_, by simp, List.getLast?_concat _, ?_, ?_⟩
  · show (([tsp.first] ++ ext) ++ [tsp.first]).length = tsp.size + 1
    simp only [List.length_append, List.length_cons, List.length_nil] at hlen ⊢
    omega
  · show ((([tsp.first] ++ ext) ++ [tsp.first]).take tsp.size).Nodup
    rw [htake]
    exact hnd
  · show ((([tsp.first] ++ ext) ++ [tsp.first]).take tsp.size).Perm (List.range tsp.size)
    rw [htake]
    exact perm_range_of_nodup _ tsp.size hnd hsub hlen

theorem solveTSP_valid_witness :
    2 ≤ (tsp2 0).size ∧ (tsp2 0).first < (tsp2 0).size ∧
      (tsp2 0).distmat.length = (tsp2 0).size * (tsp2 0).size ∧
      (tsp2 0).distmat.sum < UINT_MAX ∧
      ((solveTSP (tsp2 0)).1.array.length = (tsp2 0).size + 1 ∧
        (solveTSP (tsp2 0)).1.array.head? = some (tsp2 0).first ∧
        (solveTSP (tsp2 0)).1.array.getLast? = some (tsp2 0).first ∧
        ((solveTSP (tsp2 0)).1.array.take (tsp2 0).size).Nodup ∧
        ((solveTSP (tsp2 0)).1.array.take (tsp2 0).size).Perm (List.range (tsp2 0).size)) :=
  ⟨by decide, by decide, by decide, by decide,
    solveTSP_valid (tsp2 0) (by decide) (by decide) (by decide) (by decide)⟩

/-- C10 counterexample: on `tspB` both closed tours are encountered (the
completed-tour count is 2), each has wrapped total exactly `UINT_MAX`, so
the first closed tour does not strictly improve on the sentinel and the
returned path is the empty initial best-known state. -/
theorem solveTSP_first_tour_not_win :
    (solveTSP tspB).1.array = [] ∧ (solveTSP tspB).1.dist = UINT_MAX ∧
      (solveTSP tspB).2 = 2 := by
  decide

/-- C10 amended: when the matrix entries sum below `UINT_MAX` every closed
tour total is computed without wrap-around and lies strictly below the
sentinel `UINT_MAX`, so the first closed tour replaces the initial state
and the returned path is never the empty initial best-known path. -/
theorem solveTSP_replaces_sentinel (tsp : TSP) (h2 : 2 ≤ tsp.size)
    (hfst : tsp.first < tsp.size) (hdm : tsp.distmat.length = tsp.size * tsp.size)
    (hsum : tsp.distmat.sum < UINT_MAX) :
    (solveTSP tsp).1.array ≠ [] ∧ (solveTSP tsp).1.dist < UINT_MAX := by
  obtain ⟨u, hu, heq⟩ := solveTSP_sol_shape tsp h2 hfst hdm hsum
  obtain ⟨hw, hlt⟩ := toursFrom_top_wcost tsp hfst hdm hsum u hu
  obtain ⟨ext, hueq, _, _, _, _⟩ := toursFrom_top_shape tsp hfst u hu
  rw [heq]
  constructor
  · show u ≠ []
    rw [hueq]
    simp
  · show wcost tsp u < UINT_MAX
    omega

theorem solveTSP_replaces_sentinel_witness :
    2 ≤ (tsp2 0).size ∧ (tsp2 0).first < (tsp2 0).size ∧
      (tsp2 0).distmat.length = (tsp2 0).size * (tsp2 0).size ∧
      (tsp2 0).distmat.sum < UINT_MAX ∧
      ((solveTSP (tsp2 0)).1.array ≠ [] ∧ (solveTSP (tsp2 0)).1.dist < UINT_MAX) :=
  ⟨by decide, by decide, by decide, by decide,
    solveTSP_replaces_sentinel (tsp2 0) (by decide) (by decide) (by decide) (by decide)⟩

/-- C2 counterexample: on the wrap-around instance `tspA` the pruned run
(options byte 4 = OPTIMIZE) returns the tour `[0,2,1,0]` while the
unpruned run (options byte 0) returns `[0,1,2,0]`: with `uint` overflow the
partial-tour bound is not admissible and pruning changes the returned best
tour sequence. -/
theorem solveTSP_prune_differs :
    (solveTSP (tspA 4)).1.array = [0, 2, 1, 0] ∧
      (solveTSP (tspA 0)).1.array = [0, 1, 2, 0] ∧
      ¬ (solveTSP (tspA 4)).1.array = (solveTSP (tspA 0)).1.array := by
  decide

/-- C2 amended: when the matrix entries sum below `UINT_MAX` (no wrap-around
is possible), the run with the OPTIMIZE flag set returns exactly the same
best path (sequence and total distance) as the run with the flag clear, and
its completed-tour count is at most the unpruned count. -/
theorem solveTSP_prune_equiv (tsp : TSP) (_h2 : 2 ≤ tsp.size) (hfst : tsp.first < tsp.size)
    (hdm : tsp.distmat.length = tsp.size * tsp.size) (hsum : tsp.distmat.sum < UINT_MAX)
    (o1 o2 : Nat) (_ho1 : optimizeOn (withOptions tsp o1) = true)
    (ho2 : optimizeOn (withOptions tsp o2) = false) :
    (solveTSP (withOptions tsp o1)).1 = (solveTSP (withOptions tsp o2)).1 ∧
      (solveTSP (withOptions tsp o1)).2 ≤ (solveTSP (withOptions tsp o2)).2 := by
  have e2 := solveTSP_unpruned_eq (withOptions tsp o2) ho2
  obtain ⟨k, hk, e1⟩ := solveTSP_general (withOptions tsp o1) hfst hdm hsum
  rw [e1, e2]
  exact ⟨rfl, hk⟩

theorem solveTSP_prune_equiv_witness :
    2 ≤ (tsp2 0).size ∧ (tsp2 0).first < (tsp2 0).size ∧
      (tsp2 0).distmat.length = (tsp2 0).size * (tsp2 0).size ∧
      (tsp2 0).distmat.sum < UINT_MAX ∧
      optimizeOn (withOptions (tsp2 0) 4) = true ∧
      optimizeOn (withOptions (tsp2 0) 0) = false ∧
      ((solveTSP (withOptions (tsp2 0) 4)).1 = (solveTSP (withOptions (tsp2 0) 0)).1 ∧
        (solveTSP (withOptions (tsp2 0) 4)).2 ≤ (solveTSP (withOptions (tsp2 0) 0)).2) :=
  ⟨by decide, by decide, by decide, by decide, by decide, by decide,
    solveTSP_prune_equiv (tsp2 0) (by decide) (by decide) (by decide) (by decide) 4 0
      (by decide) (by decide)⟩

/-- C6 counterexample: on the wrap-around instance the exploration order
enumerates `[0,1,2,0]` before `[0,2,1,0]`, both have the same (wrapped)
total `0`, which is optimal, yet with the pruning flag set the solver
returns the later tour `[0,2,1,0]`: the first-discovered equal-cost optimal
tour does not win for both settings of the flag. -/
theorem solveTSP_tie_break_violated :
    toursFrom (tspA 4).size (tspA 4).first (tspA 4).size [(tspA 4).first]
        = [[0, 1, 2, 0], [0, 2, 1, 0]] ∧
      wcost (tspA 4) [0, 1, 2, 0] = 0 ∧ wcost (tspA 4) [0, 2, 1, 0] = 0 ∧
      (solveTSP (tspA 4)).1.array = [0, 2, 1, 0] := by
  decide

/-- C6 amended: under the no-overflow hypothesis, for both settings of the
pruning flag, the returned path is the first tour of the exploration order
that strictly beats every earlier candidate; all later candidates -
including those of equal cost - cost at least as much and never replace
it. -/
theorem solveTSP_first_min (tsp : TSP) (h2 : 2 ≤ tsp.size) (hfst : tsp.first < tsp.size)
    (hdm : tsp.distmat.length = tsp.size * tsp.size) (hsum : tsp.distmat.sum < UINT_MAX) :
    ∃ pre post,
      toursFrom tsp.size tsp.first tsp.size [tsp.first]
          = pre ++ (solveTSP tsp).1.array :: post ∧
        cost tsp (solveTSP tsp).1.array = (solveTSP tsp).1.dist ∧
        (∀ v ∈ pre, (solveTSP tsp).1.dist < cost tsp v) ∧
        (∀ v ∈ post, (solveTSP tsp).1.dist ≤ cost tsp v) := by
  obtain ⟨k, _, heq⟩ := solveTSP_general tsp hfst hdm hsum
  rcases bestFold_first_min tsp (toursFrom tsp.size tsp.first tsp.size [tsp.first])
    (path.mk [] UINT_MAX) with hsol | ⟨pre, u, post, hts, hbe, _, hpre, hpost⟩
  · exact absurd hsol (bestFold_top_ne_sentinel tsp h2 hfst hdm hsum)
  · have hsolu : (solveTSP tsp).1 = path.mk u (wcost tsp u) := by
      rw [heq]
      exact hbe
    have hdist : (solveTSP tsp).1.dist
        = (bestFold tsp (path.mk [] UINT_MAX)
            (toursFrom tsp.size tsp.first tsp.size [tsp.first])).dist := by
      rw [heq]
    have humem : u ∈ toursFrom tsp.size tsp.first tsp.size [tsp.first] := by
      rw [hts]
      exact List.mem_append_right _ (List.mem_cons_self u post)
    refine ⟨pre, post, ?_, ?_, ?_, ?_⟩
    · rw [hsolu]
      exact hts
    · rw [hsolu]
      show cost tsp u = wcost tsp u
      exact ((toursFrom_top_wcost tsp hfst hdm hsum u humem).1).symm
    · intro v hv
      have hvT : v ∈ toursFrom tsp.size tsp.first tsp.size [tsp.first] := by
        rw [hts]
        exact List.mem_append_left _ hv
      rw [hdist, ← (toursFrom_top_wcost tsp hfst hdm hsum v hvT).1]
      exact hpre v hv
    · intro v hv
      have hvT : v ∈ toursFrom tsp.size tsp.first tsp.size [tsp.first] := by
        rw [hts]
        exact List.mem_append_right _ (List.mem_cons_of_mem _ hv)
      rw [hdist, ← (toursFrom_top_wcost tsp hfst hdm hsum v hvT).1]
      exact hpost v hv

theorem solveTSP_first_min_witness :
    2 ≤ (tsp2 0).size ∧ (tsp2 0).first < (tsp2 0).size ∧
      (tsp2 0).distmat.length = (tsp2 0).size * (tsp2 0).size ∧
      (tsp2 0).distmat.sum < UINT_MAX ∧
      (∃ pre post,
        toursFrom (tsp2 0).size (tsp2 0).first (tsp2 0).size [(tsp2 0).first]
            = pre ++ (solveTSP (tsp2 0)).1.array :: post ∧
          cost (tsp2 0) (solveTSP (tsp2 0)).1.array = (solveTSP (tsp2 0)).1.dist ∧
          (∀ v ∈ pre, (solveTSP (tsp2 0)).1.dist < cost (tsp2 0) v) ∧
          (∀ v ∈ post, (solveTSP (tsp2 0)).1.dist ≤ cost (tsp2 0) v)) :=
  ⟨by decide, by decide, by decide, by decide,
    solveTSP_first_min (tsp2 0) (by decide) (by decide) (by decide) (by decide)⟩
